import Mathlib

/-!
# Aether extension — context resolution engine, shallow embedding

This file embeds the context resolution engine of the Aether browser
extension (strategy executor, context aggregator, live update controller,
knowledge store, audit log, palette field helpers) as executable Lean
definitions, and proves theorems about the behaviour of those definitions.

Conventions used throughout the embedding:
* a TypeScript value of type `string | undefined` is modelled as
  `Option String`; JavaScript truthiness of such a value holds exactly when
  it is `some s` with `s ≠ ""`;
* JavaScript `String#trim` / `String#toLowerCase` are modelled on the
  underlying character list (`jsTrim` / `jsToLower` below);
* DOM-dependent strategy thunks are modelled by their evaluated outcome on
  the current page: `Option StrategyResult` (`none` = the strategy missed),
  and — where exception behaviour matters — `Except Unit (Option
  StrategyResult)` (`Except.error` = the strategy threw, e.g. a malformed
  CSS selector passed to `querySelector` or a malformed regex given to the
  `RegExp` constructor);
* the external fuzzy-search library (`fuse.js`) is an arbitrary function
  `String → List KnowledgeRecord` supplied as a parameter, so theorems
  about the store hold for every possible index behaviour.
-/

namespace Aether

/-- JavaScript whitespace as used by `String#trim` (WhiteSpace and
LineTerminator code points; the exotic `Zs` code points beyond NBSP are
not needed by any input considered here but are included for fidelity). -/
def isWs (c : Char) : Bool :=
  c.toNat = 9 ∨ c.toNat = 10 ∨ c.toNat = 11 ∨ c.toNat = 12 ∨ c.toNat = 13 ∨
  c.toNat = 32 ∨ c.toNat = 160 ∨ c.toNat = 0x2028 ∨ c.toNat = 0x2029 ∨
  c.toNat = 0xFEFF

/-- Drop leading whitespace (left part of JS `String#trim`). -/
def trimLeftL (l : List Char) : List Char := l.dropWhile isWs

/-- Drop trailing whitespace (right part of JS `String#trim`). -/
def trimRightL (l : List Char) : List Char :=
  ((l.reverse).dropWhile isWs).reverse

/-- Character list underlying JS `String#trim`. -/
def trimL (l : List Char) : List Char := trimRightL (trimLeftL l)

/-- JS `String#trim`. -/
def jsTrim (s : String) : String := String.mk (trimL s.data)

/-- JS `String#toLowerCase` (basic-latin case mapping, which is what the
inputs of this code exercise). -/
def jsToLower (s : String) : String := String.mk (s.data.map Char.toLower)

/-- `v.trim().toLowerCase()` — the normalisation applied by the context
aggregator in `content/context.ts`. -/
def normStr (s : String) : String := jsToLower (jsTrim s)

/-- JS truthiness of a `string | undefined` value. -/
def truthyStr : Option String → Bool
  | some s => s ≠ ""
  | Option.none => false

/-- `normalize` from `content/context.ts`:
`value?.trim().toLowerCase() || undefined`. -/
def normalize (value : Option String) : Option String :=
  match value with
  | Option.none => Option.none
  | some v =>
      let t := normStr v
      if t = "" then Option.none else some t

/-- `normalize` on a present string, as used on candidate arrays
(`merged.map(n => normalize(n)!).filter(Boolean)`). -/
def normOne (s : String) : Option String := normalize (some s)

/-- Insertion loop of `new Set(xs)`: add each element not seen before. -/
def jsSetDedupAux (seen : List String) : List String → List String
  | [] => []
  | x :: xs =>
      if x ∈ seen then jsSetDedupAux seen xs
      else x :: jsSetDedupAux (x :: seen) xs

/-- `Array.from(new Set(xs))` on strings: keep the first occurrence of
each element, in encounter order. -/
def jsSetDedup (l : List String) : List String := jsSetDedupAux [] l

/-- Confidence grades of a resolved context (`ContextConfidence` in
`contracts`). -/
inductive ContextConfidence
  | high
  | medium
  | low
  | nothing
deriving DecidableEq, Repr

/-- A partial strategy result (`StrategyResult` in `content/context.ts`):
`Partial<ResolvedContext> & { evidence?: string[] }` restricted to the
fields the executor reads. -/
structure StrategyResult where
  bookingId : Option String := Option.none
  apartmentKeyCandidates : List String := []
  evidence : List String := []
deriving DecidableEq, Repr

/-- The accumulator the executor starts with:
`{ apartmentKeyCandidates: [], evidence: [] }`. -/
def initAcc : StrategyResult := {}

/-- One iteration of the loop body of `runStrategies` for a strategy whose
result was non-null. -/
def mergeResult (acc result : StrategyResult) : StrategyResult :=
  let bid :=
    if truthyStr result.bookingId ∧ ¬ truthyStr acc.bookingId then
      normalize result.bookingId
    else acc.bookingId
  let cands :=
    if result.apartmentKeyCandidates ≠ [] then
      jsSetDedup
        ((acc.apartmentKeyCandidates ++ result.apartmentKeyCandidates).filterMap normOne)
    else acc.apartmentKeyCandidates
  let ev :=
    if result.evidence ≠ [] then acc.evidence ++ result.evidence
    else acc.evidence
  { bookingId := bid, apartmentKeyCandidates := cands, evidence := ev }

/-- The full loop body of `runStrategies`: a null result is skipped
(`if (!result) continue`), otherwise it is merged. -/
def stepRS (acc : StrategyResult) (o : Option StrategyResult) : StrategyResult :=
  match o with
  | Option.none => acc
  | some r => mergeResult acc r

/-- `runStrategies` from `content/context.ts`, over the evaluated outcomes
of the strategies on the current page (`none` = the strategy returned
null and is skipped by `if (!result) continue`). -/
def runStrategies (results : List (Option StrategyResult)) : StrategyResult :=
  results.foldl stepRS initAcc

/-- The loop of `runStrategies` when strategies may throw: the source has
no try/catch around `strat()`, so an exception aborts the loop. -/
def runStrategiesAuxE (acc : StrategyResult) :
    List (Except Unit (Option StrategyResult)) → Except Unit StrategyResult
  | [] => Except.ok acc
  | Except.error e :: _ => Except.error e
  | Except.ok Option.none :: rest => runStrategiesAuxE acc rest
  | Except.ok (some r) :: rest => runStrategiesAuxE (mergeResult acc r) rest

/-- `runStrategies` over strategy outcomes that may be exceptions. -/
def runStrategiesE (outcomes : List (Except Unit (Option StrategyResult))) :
    Except Unit StrategyResult :=
  runStrategiesAuxE initAcc outcomes

/-- `confidenceFrom` from `content/context.ts`. -/
def confidenceFrom (ctx : StrategyResult) : ContextConfidence :=
  if truthyStr ctx.bookingId then ContextConfidence.high
  else if ctx.apartmentKeyCandidates ≠ [] then ContextConfidence.medium
  else ContextConfidence.low

/-- A confidence override rule of a resolver config. -/
structure ConfidenceRule where
  requires : List String
  confidence : ContextConfidence
deriving DecidableEq, Repr

/-- The part of `ResolverConfig` that the aggregation step of `detectNow`
reads (the strategies themselves are evaluated separately into
`StrategyResult` outcomes). -/
structure ResolverConfigM where
  app : String
  confidenceRules : Option (List ConfidenceRule)
deriving DecidableEq, Repr

/-- Satisfaction test of one confidence rule against the aggregate, as in
the rule loop of `detectNow`. -/
def ruleSatisfied (aggregate : StrategyResult) (rule : ConfidenceRule) : Bool :=
  (if "bookingId" ∈ rule.requires then truthyStr aggregate.bookingId else true) &&
  (if "apartmentKeyCandidates" ∈ rule.requires then
      aggregate.apartmentKeyCandidates.length > 0
    else true)

/-- The confidence computed by `detectNow`: the default `confidenceFrom`,
overridden by the first satisfied rule of `cfg?.confidenceRules`. -/
def detectConfidence (cfg : Option ResolverConfigM) (aggregate : StrategyResult) :
    ContextConfidence :=
  match Option.bind cfg (fun c => c.confidenceRules) with
  | Option.none => confidenceFrom aggregate
  | some rules =>
      match rules.find? (ruleSatisfied aggregate) with
      | some rule => rule.confidence
      | Option.none => confidenceFrom aggregate

/-- `ResolvedContext` from `contracts`. -/
structure ResolvedContext where
  app : String
  bookingId : Option String
  apartmentKeyCandidates : List String
  confidence : ContextConfidence
  evidence : List String
deriving DecidableEq, Repr

/-- The context object built at the end of `detectNow` from the aggregate
of the executed strategies (`fallbackApp` is the
conduit-host/`'unknown'` fallback for `cfg?.app ||`). -/
def detectContextFrom (cfg : Option ResolverConfigM)
    (results : List (Option StrategyResult)) (fallbackApp : String) :
    ResolvedContext :=
  let aggregate := runStrategies results
  { app :=
      match cfg with
      | some c => if c.app = "" then fallbackApp else c.app
      | Option.none => fallbackApp
    bookingId := aggregate.bookingId
    apartmentKeyCandidates := aggregate.apartmentKeyCandidates
    confidence := detectConfidence cfg aggregate
    evidence := aggregate.evidence }

/-- `detectNow` when strategies may throw: the aggregation runs after
`runStrategies`, so an exception raised there escapes `detectNow` too. -/
def detectContextFromE (cfg : Option ResolverConfigM)
    (outcomes : List (Except Unit (Option StrategyResult)))
    (fallbackApp : String) : Except Unit ResolvedContext :=
  (runStrategiesE outcomes).map fun aggregate =>
    { app :=
        match cfg with
        | some c => if c.app = "" then fallbackApp else c.app
        | Option.none => fallbackApp
      bookingId := aggregate.bookingId
      apartmentKeyCandidates := aggregate.apartmentKeyCandidates
      confidence := detectConfidence cfg aggregate
      evidence := aggregate.evidence }

/-- The part of `KnowledgeRecord` that search and resolution read. -/
structure KnowledgeRecord where
  recordId : String
  keys : List String
deriving DecidableEq, Repr

/-- The inner loop of `resolveContext`'s fuzzy fallback: push each match
not yet collected (de-duplicated by `recordId`). -/
def pushMatches : List KnowledgeRecord → List KnowledgeRecord →
    List KnowledgeRecord
  | col, [] => col
  | col, m :: ms =>
      pushMatches
        (if col.any (fun r => r.recordId = m.recordId) then col else col ++ [m])
        ms

/-- The fuzzy-search loop of `KnowledgeStore.resolveContext`: for each
candidate, push each fuzzy match not yet collected (de-duplicated by
`recordId`), then stop if at least three records have been collected. -/
def collectFuzzy (fuzzy : String → List KnowledgeRecord) :
    List String → List KnowledgeRecord → List KnowledgeRecord
  | [], collected => collected
  | cand :: rest, collected =>
      let collected' := pushMatches collected (fuzzy cand)
      if 3 ≤ collected'.length then collected'
      else collectFuzzy fuzzy rest collected'

/-- The records whose `keys` contain a case-insensitive exact match for
`bid` — the filter of the exact branch of `resolveContext`. -/
def exactMatches (records : List KnowledgeRecord) (bid : String) :
    List KnowledgeRecord :=
  records.filter fun r => r.keys.any fun k => jsToLower k = jsToLower bid

/-- `KnowledgeStore.resolveContext` from `content/knowledge.ts`, with the
fuse index abstracted as `fuzzy`: a truthy `bookingId` with a non-empty
exact match set returns that set; otherwise the fuzzy fallback runs. -/
def resolveContext (records : List KnowledgeRecord)
    (fuzzy : String → List KnowledgeRecord) (ctx : Option ResolvedContext) :
    List KnowledgeRecord :=
  match ctx with
  | Option.none => []
  | some c =>
      if truthyStr c.bookingId ∧ exactMatches records (c.bookingId.getD "") ≠ [] then
        exactMatches records (c.bookingId.getD "")
      else collectFuzzy fuzzy c.apartmentKeyCandidates []

/-- In-memory state of `KnowledgeStore`: the record set, the fuse index
built from it, and the persisted mirror (the IndexedDB record table). -/
structure StoreState where
  records : List KnowledgeRecord
  fuse : String → List KnowledgeRecord
  mirror : List KnowledgeRecord

/-- `KnowledgeStore.search`: empty/whitespace query returns the first five
records; otherwise up to ten fuzzy matches. -/
def searchStore (st : StoreState) (query : String) : List KnowledgeRecord :=
  if jsTrim query = "" then st.records.take 5
  else (st.fuse query).take 10

/-- `KnowledgeStore.loadPack`: swap the record set, rebuild the index, then
try to persist; a persistence failure is caught and the in-memory swap is
kept (`createFuse` abstracts the fuse constructor, `persistFails` whether
`replaceAllRecords` rejects). -/
def loadPack (createFuse : List KnowledgeRecord → String → List KnowledgeRecord)
    (st : StoreState) (newRecords : List KnowledgeRecord) (persistFails : Bool) :
    StoreState :=
  let swapped : StoreState :=
    { records := newRecords, fuse := createFuse newRecords, mirror := st.mirror }
  if persistFails then swapped
  else { swapped with mirror := newRecords }

/-- An audit event (`AuditEvent` in `content/knowledgeDb.ts`); timestamps
are modelled as naturals ordered like the ISO strings the code compares. -/
structure AuditEvent where
  recordId : String
  fieldKey : String
  timestamp : Nat
deriving DecidableEq, Repr

/-- The `recordId:fieldKey` cache key of the audit module. -/
def auditKey (recordId fieldKey : String) : String :=
  recordId ++ ":" ++ fieldKey

/-- JS object property assignment `obj[k] = t` on a string-keyed record. -/
def setK (cache : List (String × Nat)) (k : String) (t : Nat) :
    List (String × Nat) :=
  match cache with
  | [] => [(k, t)]
  | (k', t') :: rest =>
      if k' = k then (k, t) :: rest else (k', t') :: setK rest k t

/-- JS object property read `obj[k]` on a string-keyed record. -/
def getK (cache : List (String × Nat)) (k : String) : Option Nat :=
  (cache.find? fun p => p.1 = k).map fun p => p.2

/-- `Object.assign(cache, upd)`: every entry of `upd` overwrites `cache`. -/
def mergeAssign : List (String × Nat) → List (String × Nat) →
    List (String × Nat)
  | cache, [] => cache
  | cache, (k, t) :: rest => mergeAssign (setK cache k t) rest

/-- One event of the `loadAuditLatest` scan: keep the entry if it is
absent or older (`!latest[key] || latest[key] < ev.timestamp`). -/
def latestStep (latest : List (String × Nat)) (ev : AuditEvent) :
    List (String × Nat) :=
  match getK latest (auditKey ev.recordId ev.fieldKey) with
  | Option.none => setK latest (auditKey ev.recordId ev.fieldKey) ev.timestamp
  | some t =>
      if t < ev.timestamp then
        setK latest (auditKey ev.recordId ev.fieldKey) ev.timestamp
      else latest

/-- The scan loop of `loadAuditLatest` over the remaining events. -/
def loadAuditLatestAux : List (String × Nat) → List AuditEvent →
    List (String × Nat)
  | latest, [] => latest
  | latest, ev :: rest => loadAuditLatestAux (latestStep latest ev) rest

/-- `loadAuditLatest` from `content/knowledgeDb.ts`: scan the persisted log
keeping the maximum timestamp per `recordId:fieldKey` key. -/
def loadAuditLatest (log : List AuditEvent) : List (String × Nat) :=
  loadAuditLatestAux [] log

/-- State of the audit module in `content/knowledge.ts`: the persisted
append-only log, the in-memory last-reveal cache and the hydration flag. -/
structure AuditState where
  log : List AuditEvent
  cache : List (String × Nat)
  hydrated : Bool

/-- `logReveal`: append the event to the persisted log and update the
in-memory cache with the new timestamp (`now` is the clock reading). -/
def logReveal (st : AuditState) (recordId fieldKey : String) (now : Nat) :
    AuditState :=
  { log := st.log ++ [{ recordId, fieldKey, timestamp := now }],
    cache := setK st.cache (auditKey recordId fieldKey) now,
    hydrated := st.hydrated }

/-- `getLastReveal`: hydrate the cache from the persisted log on first
call (`Object.assign(cache, await loadAuditLatest())`), then read the
cache; returns the state after the call and the returned value. -/
def getLastReveal (st : AuditState) (recordId fieldKey : String) :
    AuditState × Option Nat :=
  let st' :=
    if st.hydrated then st
    else
      { log := st.log,
        cache := mergeAssign st.cache (loadAuditLatest st.log),
        hydrated := true }
  (st', getK st'.cache (auditKey recordId fieldKey))

/-- JS `a || b` on `string | undefined` values (used for the legacy `key`
field: `ctx.bookingId || ctx.apartmentKeyCandidates[0]`). -/
def jsOr (a b : Option String) : Option String :=
  match a with
  | some s => if s = "" then b else some s
  | Option.none => b

/-- The published context shape `ResolvedContext & { key?, reason? }`. -/
structure LegacyContext where
  ctx : ResolvedContext
  key : Option String
  reason : Option String
deriving DecidableEq, Repr

/-- `withLegacy` from `content/context.ts`. -/
def withLegacy (ctx : ResolvedContext) (reason : Option String) : LegacyContext :=
  { ctx, key := jsOr ctx.bookingId ctx.apartmentKeyCandidates.head?, reason }

/-- State of the live update controller: the module-level `pinned` and
`current` variables. -/
structure LiveState where
  pinned : Option ResolvedContext
  current : LegacyContext
deriving DecidableEq, Repr

/-- `detectNow` at the level the controller sees it: when pinned it
short-circuits to `withLegacy(pinned, 'pinned')` and never touches the
page; otherwise it yields whatever the page detection computes
(`pageDetect`). -/
def detectNowM (pinned : Option ResolvedContext) (pageDetect : LegacyContext) :
    LegacyContext :=
  match pinned with
  | some p => withLegacy p (some "pinned")
  | Option.none => pageDetect

/-- The pinned context built by `setPinnedContext`. -/
def pinnedCtx (key reason : String) : ResolvedContext :=
  { app := "pinned"
    bookingId := some key
    apartmentKeyCandidates := [key]
    confidence := ContextConfidence.high
    evidence := [reason] }

/-- `setPinnedContext(key, reason)`: set `pinned` and notify (which
replaces `current`). -/
def setPinnedContext (_st : LiveState) (key reason : String) : LiveState :=
  let p := pinnedCtx key reason
  { pinned := some p, current := withLegacy p (some reason) }

/-- `clearPinnedContext()`: clear `pinned` and notify with a fresh
detection. -/
def clearPinnedContext (_st : LiveState) (pageDetect : LegacyContext) : LiveState :=
  { pinned := Option.none, current := detectNowM Option.none pageDetect }

/-- The `update` closure of `startObservers`, run on every navigation or
mutation trigger: recompute, and notify only if the derived `key` or the
`confidence` changed. -/
def updateOnTrigger (st : LiveState) (pageDetect : LegacyContext) : LiveState :=
  let next := detectNowM st.pinned pageDetect
  if next.key ≠ st.current.key ∨ next.ctx.confidence ≠ st.current.ctx.confidence
  then { pinned := st.pinned, current := next }
  else st

/-- Reveal policy of a secret field. -/
inductive RevealPolicy
  | mask
  | plain
deriving DecidableEq, Repr

/-- `KnowledgeField` from `contracts`. -/
inductive KnowledgeField
  | text (value : String)
  | secret (value : String) (revealPolicy : Option RevealPolicy)
      (auditOnReveal : Option Bool)
  | link (label : String) (url : String)
deriving DecidableEq, Repr

/-- `renderFieldValue` from `content/ui/paletteUtils.ts`. -/
def renderFieldValue (field : KnowledgeField) (revealed : Bool) : String :=
  match field with
  | KnowledgeField.text v => v
  | KnowledgeField.secret v _ _ => if revealed then v else "••••••"
  | KnowledgeField.link label url => label ++ " (" ++ url ++ ")"

/-- `shouldMask` from `content/ui/paletteUtils.ts`. -/
def shouldMask (field : KnowledgeField) (revealed : Bool) : Bool :=
  match field with
  | KnowledgeField.secret _ _ _ => ¬ revealed
  | _ => false

/-- The palette's field rendering (`CommandPalette.tsx`):
`renderFieldValue(field, !shouldMask(field, sessionRevealed))` where
`sessionRevealed` is this session's reveal toggle for the field. -/
def paletteRender (field : KnowledgeField) (sessionRevealed : Bool) : String :=
  renderFieldValue field (¬ shouldMask field sessionRevealed)

/-- First strategy outcome whose raw `bookingId` is a non-empty string,
together with that raw value — the specification's reading of the
bookingId aggregation rule, for comparison with `runStrategies`. -/
def firstNonEmptyRaw (results : List (Option StrategyResult)) : Option String :=
  results.findSome? fun o =>
    Option.bind o fun r =>
      match r.bookingId with
      | some s => if s = "" then Option.none else some s
      | Option.none => Option.none

/-- A config declaring one confidence rule with an empty requirement set,
graded `low` (vacuously satisfied by every aggregate). -/
def cfgLowRule : Option ResolverConfigM :=
  some
    { app := "site",
      confidenceRules := some [{ requires := [], confidence := ContextConfidence.low }] }

/-- Strategy outcomes of a page whose URL carries `?bookingId=WB12`. -/
def resBooking : List (Option StrategyResult) :=
  [some { bookingId := some "WB12", evidence := ["urlParam:bookingId"] }]

/-- Strategy outcomes where the first firing strategy returns a
whitespace-only `bookingId` and a later one returns `"x"`. -/
def resWhitespaceFirst : List (Option StrategyResult) :=
  [some { bookingId := some " " }, some { bookingId := some "x" }]

/-- The spec's duplicate-candidate scenario: two strategies returning
`"West Broadway 12"` and `"west broadway 12 "`. -/
def resDupCandidates : List (Option StrategyResult) :=
  [some { apartmentKeyCandidates := ["West Broadway 12"], evidence := ["s1"] },
   some { apartmentKeyCandidates := ["west broadway 12 "], evidence := ["s2"] }]

/-- A record keyed `WB12`. -/
def recWb12 : KnowledgeRecord := { recordId := "r1", keys := ["WB12"] }

/-- A record keyed `other`. -/
def recOther : KnowledgeRecord := { recordId := "r2", keys := ["other"] }

/-- Four distinct records, used as the match list of a fuzzy index. -/
def recsFour : List KnowledgeRecord :=
  [{ recordId := "a1", keys := ["west broadway 10"] },
   { recordId := "a2", keys := ["west broadway 11"] },
   { recordId := "a3", keys := ["west broadway 12"] },
   { recordId := "a4", keys := ["west broadway 13"] }]

/-- A fuzzy index returning four distinct matches for every query. -/
def fuzzyFour : String → List KnowledgeRecord := fun _ => recsFour

/-- A context with no `bookingId` and one apartment key candidate. -/
def ctxNoBooking : ResolvedContext :=
  { app := "x", bookingId := Option.none,
    apartmentKeyCandidates := ["west broadway"],
    confidence := ContextConfidence.medium, evidence := [] }

/-- Maximum per-candidate match count of a fuzzy index over a candidate
list (used to bound the size of the collected record list). -/
def maxMatchLen (fuzzy : String → List KnowledgeRecord) :
    List String → Nat
  | [] => 0
  | c :: rest => max (fuzzy c).length (maxMatchLen fuzzy rest)

/-! ## Character and string normalisation lemmas -/

theorem char_toNat_ofNat {n : Nat} (h : n.isValidChar) :
    (Char.ofNat n).toNat = n := by
  unfold Char.ofNat
  rw [dif_pos h]
  rfl

theorem toLower_of_upper {c : Char} (h1 : 65 ≤ c.toNat) (h2 : c.toNat ≤ 90) :
    Char.toLower c = Char.ofNat (c.toNat + 32) := by
  unfold Char.toLower
  rw [if_pos ⟨h1, h2⟩]

theorem toLower_of_not_upper {c : Char} (h : ¬(65 ≤ c.toNat ∧ c.toNat ≤ 90)) :
    Char.toLower c = c := by
  unfold Char.toLower
  rw [if_neg h]

theorem toNat_toLower (c : Char) :
    (Char.toLower c).toNat =
      if 65 ≤ c.toNat ∧ c.toNat ≤ 90 then c.toNat + 32 else c.toNat := by
  by_cases h : 65 ≤ c.toNat ∧ c.toNat ≤ 90
  · rw [toLower_of_upper h.1 h.2, if_pos h,
      char_toNat_ofNat (Or.inl (by omega))]
  · rw [toLower_of_not_upper h, if_neg h]

theorem toLower_toLower (c : Char) :
    Char.toLower (Char.toLower c) = Char.toLower c := by
  apply toLower_of_not_upper
  rw [toNat_toLower]
  by_cases h : 65 ≤ c.toNat ∧ c.toNat ≤ 90
  · rw [if_pos h]; omega
  · rw [if_neg h]; exact h

theorem isWs_toLower (c : Char) : isWs (Char.toLower c) = isWs c := by
  by_cases h : 65 ≤ c.toNat ∧ c.toNat ≤ 90
  · have ht : (Char.toLower c).toNat = c.toNat + 32 := by
      rw [toNat_toLower, if_pos h]
    have e1 : isWs (Char.toLower c) = false := by
      simp only [isWs, ht, decide_eq_false_iff_not]
      omega
    have e2 : isWs c = false := by
      simp only [isWs, decide_eq_false_iff_not]
      omega
    rw [e1, e2]
  · rw [toLower_of_not_upper h]

theorem dropWhile_idem (p : α → Bool) (l : List α) :
    (l.dropWhile p).dropWhile p = l.dropWhile p := by
  induction l with
  | nil => rfl
  | cons x xs ih =>
      by_cases h : p x
      · simp [List.dropWhile_cons, h, ih]
      · simp [List.dropWhile_cons, h]

theorem head_not_of_dropWhile_eq_self {p : α → Bool} {l : List α}
    (h : l.dropWhile p = l) : ∀ c, l.head? = some c → p c = false := by
  intro c hc
  cases l with
  | nil => simp at hc
  | cons x xs =>
      simp only [List.head?_cons, Option.some.injEq] at hc
      subst hc
      by_cases hp : p x
      · rw [List.dropWhile_cons_of_pos hp] at h
        have hle := (List.dropWhile_sublist (l := xs) p).length_le
        have hlen := congrArg List.length h
        simp only [List.length_cons] at hlen
        omega
      · simpa using hp

theorem dropWhile_eq_self_of_head {p : α → Bool} {l : List α}
    (h : ∀ c, l.head? = some c → p c = false) : l.dropWhile p = l := by
  cases l with
  | nil => rfl
  | cons x xs =>
      have hx := h x rfl
      simp [List.dropWhile_cons, hx]

theorem prefix_head_eq {l₁ l₂ : List α} (h : l₁ <+: l₂) (hne : l₁ ≠ []) :
    l₂.head? = l₁.head? := by
  obtain ⟨t, rfl⟩ := h
  cases l₁ with
  | nil => exact absurd rfl hne
  | cons x xs => rfl

theorem trimRightL_prefix_self (l : List Char) : trimRightL l <+: l := by
  have h := List.dropWhile_suffix (l := l.reverse) isWs
  have h2 := List.reverse_prefix.mpr h
  simpa [trimRightL] using h2

theorem trimRightL_idem (l : List Char) :
    trimRightL (trimRightL l) = trimRightL l := by
  unfold trimRightL
  rw [List.reverse_reverse, dropWhile_idem]

theorem leftTrimmed_trimRightL {l : List Char} (h : l.dropWhile isWs = l) :
    (trimRightL l).dropWhile isWs = trimRightL l := by
  apply dropWhile_eq_self_of_head
  intro c hc
  have hne : trimRightL l ≠ [] := by
    intro he
    rw [he] at hc
    simp at hc
  have hh := prefix_head_eq (trimRightL_prefix_self l) hne
  exact head_not_of_dropWhile_eq_self h c (hh.trans hc)

theorem trimL_idem (l : List Char) : trimL (trimL l) = trimL l := by
  unfold trimL trimLeftL
  rw [leftTrimmed_trimRightL (dropWhile_idem _ _), trimRightL_idem]

theorem dropWhile_isWs_map_toLower (l : List Char) :
    (l.map Char.toLower).dropWhile isWs =
      (l.dropWhile isWs).map Char.toLower := by
  have hfun : isWs ∘ Char.toLower = isWs := funext isWs_toLower
  rw [List.dropWhile_map, hfun]

theorem trimRightL_map_toLower (l : List Char) :
    trimRightL (l.map Char.toLower) = (trimRightL l).map Char.toLower := by
  unfold trimRightL
  rw [← List.map_reverse, dropWhile_isWs_map_toLower, List.map_reverse]

theorem trimL_map_toLower (l : List Char) :
    trimL (l.map Char.toLower) = (trimL l).map Char.toLower := by
  unfold trimL trimLeftL
  rw [dropWhile_isWs_map_toLower, trimRightL_map_toLower]

theorem normStr_idem (s : String) : normStr (normStr s) = normStr s := by
  have hdata :
      (trimL ((trimL s.data).map Char.toLower)).map Char.toLower
        = (trimL s.data).map Char.toLower := by
    rw [trimL_map_toLower, trimL_idem, List.map_map]
    congr 1
    funext c
    exact toLower_toLower c
  calc normStr (normStr s)
      = String.mk ((trimL ((trimL s.data).map Char.toLower)).map Char.toLower) := rfl
    _ = String.mk ((trimL s.data).map Char.toLower) := by rw [hdata]
    _ = normStr s := rfl

theorem normOne_eq_some {s t : String} (h : normOne s = some t) :
    t = normStr s ∧ t ≠ "" := by
  by_cases he : normStr s = ""
  · simp [normOne, normalize, he] at h
  · have h' : some (normStr s) = some t := by
      simpa [normOne, normalize, he] using h
    obtain rfl : normStr s = t := Option.some.inj h'
    exact ⟨rfl, he⟩

theorem normOne_fixed {s t : String} (h : normOne s = some t) :
    normOne t = some t := by
  obtain ⟨rfl, hne⟩ := normOne_eq_some h
  simp [normOne, normalize, normStr_idem, hne]

/-! ## De-duplication lemmas -/

theorem mem_jsSetDedupAux : ∀ (l seen : List String) (a : String),
    a ∈ jsSetDedupAux seen l ↔ a ∈ l ∧ a ∉ seen := by
  intro l
  induction l with
  | nil => intro seen a; simp [jsSetDedupAux]
  | cons x xs ih =>
      intro seen a
      rw [jsSetDedupAux]
      by_cases hx : x ∈ seen
      · rw [if_pos hx, ih seen a]
        constructor
        · rintro ⟨h1, h2⟩
          exact ⟨List.mem_cons_of_mem _ h1, h2⟩
        · rintro ⟨h1, h2⟩
          rcases List.mem_cons.mp h1 with rfl | hmem
          · exact absurd hx h2
          · exact ⟨hmem, h2⟩
      · rw [if_neg hx]
        simp only [List.mem_cons, ih (x :: seen) a]
        constructor
        · rintro (rfl | ⟨h1, h2⟩)
          · exact ⟨Or.inl rfl, hx⟩
          · exact ⟨Or.inr h1, fun hs => h2 (Or.inr hs)⟩
        · rintro ⟨rfl | h1, h2⟩
          · exact Or.inl rfl
          · by_cases hax : a = x
            · exact Or.inl hax
            · exact Or.inr ⟨h1, fun hs => (by
                rcases hs with hs | hs
                · exact hax hs
                · exact h2 hs)⟩

theorem mem_jsSetDedup : ∀ (l : List String) (a : String),
    a ∈ jsSetDedup l ↔ a ∈ l := by
  intro l a
  rw [jsSetDedup, mem_jsSetDedupAux]
  simp

theorem nodup_jsSetDedupAux : ∀ (l seen : List String),
    (jsSetDedupAux seen l).Nodup := by
  intro l
  induction l with
  | nil => intro seen; simp [jsSetDedupAux]
  | cons x xs ih =>
      intro seen
      rw [jsSetDedupAux]
      by_cases hx : x ∈ seen
      · rw [if_pos hx]; exact ih seen
      · rw [if_neg hx]
        refine List.nodup_cons.mpr ⟨?_, ih (x :: seen)⟩
        intro hmem
        rw [mem_jsSetDedupAux] at hmem
        exact hmem.2 (List.mem_cons_self _ _)

theorem nodup_jsSetDedup : ∀ (l : List String), (jsSetDedup l).Nodup := by
  intro l
  exact nodup_jsSetDedupAux l []

/-! ## Strategy executor lemmas -/

theorem mergeResult_bookingId (acc r : StrategyResult) :
    (mergeResult acc r).bookingId =
      if truthyStr r.bookingId ∧ ¬ truthyStr acc.bookingId then
        normalize r.bookingId
      else acc.bookingId := rfl

theorem mergeResult_cands (acc r : StrategyResult) :
    (mergeResult acc r).apartmentKeyCandidates =
      if r.apartmentKeyCandidates ≠ [] then
        jsSetDedup
          ((acc.apartmentKeyCandidates ++ r.apartmentKeyCandidates).filterMap normOne)
      else acc.apartmentKeyCandidates := rfl

theorem normalize_eq_none_of_not_truthy {b : Option String}
    (h : truthyStr b = false) : normalize b = Option.none := by
  cases b with
  | none => rfl
  | some s =>
      have hs : s = "" := by simpa [truthyStr] using h
      subst hs
      decide

theorem normalize_some_ne_empty {b : Option String} {t : String}
    (h : normalize b = some t) : t ≠ "" := by
  cases b with
  | none => exact absurd h (by simp [normalize])
  | some v => exact (normOne_eq_some h).2

theorem foldl_stepRS_bookingId_of_truthy {acc : StrategyResult}
    (results : List (Option StrategyResult))
    (h : truthyStr acc.bookingId = true) :
    (results.foldl stepRS acc).bookingId = acc.bookingId := by
  induction results generalizing acc with
  | nil => rfl
  | cons o rest ih =>
      cases o with
      | none => exact ih h
      | some r =>
          rw [List.foldl_cons]
          have hb : (stepRS acc (some r)).bookingId = acc.bookingId := by
            show (mergeResult acc r).bookingId = acc.bookingId
            rw [mergeResult_bookingId, if_neg]
            intro hc
            exact hc.2 h
          have h2 : truthyStr (stepRS acc (some r)).bookingId = true := by
            rw [hb]; exact h
          rw [ih h2, hb]

theorem foldl_stepRS_bookingId_none {acc : StrategyResult}
    (results : List (Option StrategyResult))
    (h : acc.bookingId = Option.none) :
    (results.foldl stepRS acc).bookingId
      = results.findSome? fun o => Option.bind o fun r => normalize r.bookingId := by
  induction results generalizing acc with
  | nil => simpa using h
  | cons o rest ih =>
      cases o with
      | none =>
          rw [List.foldl_cons]
          show (rest.foldl stepRS acc).bookingId = _
          rw [ih h]
          simp [List.findSome?_cons]
      | some r =>
          rw [List.foldl_cons]
          have hnt : ¬ truthyStr acc.bookingId = true := by
            rw [h]; simp [truthyStr]
          by_cases hr : truthyStr r.bookingId = true
          · have hb : (stepRS acc (some r)).bookingId = normalize r.bookingId := by
              show (mergeResult acc r).bookingId = _
              rw [mergeResult_bookingId, if_pos ⟨hr, hnt⟩]
            cases hn : normalize r.bookingId with
            | none =>
                rw [ih (hb.trans hn)]
                simp [List.findSome?_cons, hn]
            | some t =>
                have ht : truthyStr (stepRS acc (some r)).bookingId = true := by
                  rw [hb, hn]
                  simpa [truthyStr] using normalize_some_ne_empty hn
                rw [foldl_stepRS_bookingId_of_truthy rest ht, hb, hn]
                simp [List.findSome?_cons, hn]
          · have hb : (stepRS acc (some r)).bookingId = acc.bookingId := by
              show (mergeResult acc r).bookingId = _
              rw [mergeResult_bookingId, if_neg (fun hc => hr hc.1)]
            have hrf : truthyStr r.bookingId = false := by
              cases hbool : truthyStr r.bookingId
              · rfl
              · exact absurd hbool hr
            have hn : normalize r.bookingId = Option.none :=
              normalize_eq_none_of_not_truthy hrf
            rw [ih (hb.trans h)]
            simp [List.findSome?_cons, hn]

theorem merge_cands_mem {acc r : StrategyResult}
    (hfix : ∀ s ∈ acc.apartmentKeyCandidates, normOne s = some s) (s : String) :
    s ∈ (mergeResult acc r).apartmentKeyCandidates ↔
      s ∈ acc.apartmentKeyCandidates ∨
        ∃ c ∈ r.apartmentKeyCandidates, normOne c = some s := by
  rw [mergeResult_cands]
  by_cases hr : r.apartmentKeyCandidates = []
  · simp [hr]
  · rw [if_pos hr, mem_jsSetDedup, List.mem_filterMap]
    constructor
    · rintro ⟨c, hc, hnc⟩
      rcases List.mem_append.mp hc with h1 | h2
      · left
        have hfixc := hfix c h1
        rw [hfixc] at hnc
        exact (Option.some.inj hnc) ▸ h1
      · right
        exact ⟨c, h2, hnc⟩
    · rintro (hs | ⟨c, hc, hnc⟩)
      · exact ⟨s, List.mem_append.mpr (Or.inl hs), hfix s hs⟩
      · exact ⟨c, List.mem_append.mpr (Or.inr hc), hnc⟩

theorem merge_cands_inv {acc r : StrategyResult}
    (hnd : acc.apartmentKeyCandidates.Nodup)
    (hfix : ∀ s ∈ acc.apartmentKeyCandidates, normOne s = some s) :
    (mergeResult acc r).apartmentKeyCandidates.Nodup ∧
      ∀ s ∈ (mergeResult acc r).apartmentKeyCandidates, normOne s = some s := by
  rw [mergeResult_cands]
  by_cases hr : r.apartmentKeyCandidates = []
  · rw [if_neg (by simp [hr])]
    exact ⟨hnd, hfix⟩
  · rw [if_pos hr]
    refine ⟨nodup_jsSetDedup _, ?_⟩
    intro s hs
    rw [mem_jsSetDedup, List.mem_filterMap] at hs
    obtain ⟨c, _, hc⟩ := hs
    exact normOne_fixed hc

theorem foldl_stepRS_cands (results : List (Option StrategyResult)) :
    ∀ acc : StrategyResult, acc.apartmentKeyCandidates.Nodup →
      (∀ s ∈ acc.apartmentKeyCandidates, normOne s = some s) →
      (results.foldl stepRS acc).apartmentKeyCandidates.Nodup ∧
        ∀ s, s ∈ (results.foldl stepRS acc).apartmentKeyCandidates ↔
          (s ∈ acc.apartmentKeyCandidates ∨
            ∃ r, some r ∈ results ∧
              ∃ c ∈ r.apartmentKeyCandidates, normOne c = some s) := by
  induction results with
  | nil =>
      intro acc hnd hfix
      refine ⟨hnd, fun s => ?_⟩
      simp
  | cons o rest ih =>
      intro acc hnd hfix
      cases o with
      | none =>
          rw [List.foldl_cons]
          have hstep : stepRS acc Option.none = acc := rfl
          rw [hstep]
          obtain ⟨h1, h2⟩ := ih acc hnd hfix
          refine ⟨h1, fun s => ?_⟩
          rw [h2 s]
          constructor
          · rintro (h | ⟨r, hr, hc⟩)
            · exact Or.inl h
            · exact Or.inr ⟨r, List.mem_cons_of_mem _ hr, hc⟩
          · rintro (h | ⟨r, hr, hc⟩)
            · exact Or.inl h
            · rcases List.mem_cons.mp hr with heq | hmem
              · exact absurd heq (by simp)
              · exact Or.inr ⟨r, hmem, hc⟩
      | some r0 =>
          rw [List.foldl_cons]
          have hstep : stepRS acc (some r0) = mergeResult acc r0 := rfl
          rw [hstep]
          obtain ⟨hnd', hfix'⟩ := merge_cands_inv (r := r0) hnd hfix
          obtain ⟨h1, h2⟩ := ih (mergeResult acc r0) hnd' hfix'
          refine ⟨h1, fun s => ?_⟩
          rw [h2 s, merge_cands_mem hfix s]
          constructor
          · rintro ((hs | ⟨c, hc, hn⟩) | ⟨r, hr, hc⟩)
            · exact Or.inl hs
            · exact Or.inr ⟨r0, List.mem_cons_self _ _, c, hc, hn⟩
            · exact Or.inr ⟨r, List.mem_cons_of_mem _ hr, hc⟩
          · rintro (hs | ⟨r, hr, hc⟩)
            · exact Or.inl (Or.inl hs)
            · rcases List.mem_cons.mp hr with heq | hmem
              · obtain rfl : r = r0 := Option.some.inj heq
                exact Or.inl (Or.inr hc)
              · exact Or.inr ⟨r, hmem, hc⟩

theorem runStrategiesAuxE_map_ok (results : List (Option StrategyResult)) :
    ∀ acc, runStrategiesAuxE acc (results.map Except.ok)
      = Except.ok (results.foldl stepRS acc) := by
  induction results with
  | nil => intro acc; rfl
  | cons o rest ih =>
      intro acc
      cases o with
      | none => exact ih acc
      | some r => exact ih (mergeResult acc r)

theorem runStrategiesAuxE_error (pre : List (Option StrategyResult)) :
    ∀ acc rest,
      runStrategiesAuxE acc (pre.map Except.ok ++ Except.error () :: rest)
        = Except.error () := by
  induction pre with
  | nil => intro acc rest; rfl
  | cons o prest ih =>
      intro acc rest
      cases o with
      | none => exact ih acc rest
      | some r => exact ih (mergeResult acc r) rest

/-! ## Knowledge store lemmas -/

theorem pushMatches_length : ∀ (ms col : List KnowledgeRecord),
    (pushMatches col ms).length ≤ col.length + ms.length := by
  intro ms
  induction ms with
  | nil => intro col; simp [pushMatches]
  | cons m rest ih =>
      intro col
      rw [pushMatches]
      by_cases h : col.any (fun r => r.recordId = m.recordId)
      · rw [if_pos h]
        have := ih col
        simpa using Nat.le_trans this (by omega)
      · rw [if_neg h]
        have := ih (col ++ [m])
        simp only [List.length_append, List.length_singleton] at this
        simpa using Nat.le_trans this (by omega)

theorem pushMatches_mem : ∀ (ms col : List KnowledgeRecord) (a : KnowledgeRecord),
    a ∈ pushMatches col ms → a ∈ col ∨ a ∈ ms := by
  intro ms
  induction ms with
  | nil =>
      intro col a ha
      exact Or.inl ha
  | cons m rest ih =>
      intro col a ha
      rw [pushMatches] at ha
      by_cases h : col.any (fun r => r.recordId = m.recordId)
      · rw [if_pos h] at ha
        rcases ih col a ha with h1 | h2
        · exact Or.inl h1
        · exact Or.inr (List.mem_cons_of_mem _ h2)
      · rw [if_neg h] at ha
        rcases ih (col ++ [m]) a ha with h1 | h2
        · rcases List.mem_append.mp h1 with h3 | h4
          · exact Or.inl h3
          · simp only [List.mem_singleton] at h4
            exact Or.inr (h4 ▸ List.mem_cons_self _ _)
        · exact Or.inr (List.mem_cons_of_mem _ h2)

theorem pushMatches_nodup : ∀ (ms col : List KnowledgeRecord),
    (col.map (fun r => r.recordId)).Nodup →
    ((pushMatches col ms).map (fun r => r.recordId)).Nodup := by
  intro ms
  induction ms with
  | nil => intro col h; exact h
  | cons m rest ih =>
      intro col h
      rw [pushMatches]
      by_cases hc : col.any (fun r => r.recordId = m.recordId)
      · rw [if_pos hc]
        exact ih col h
      · rw [if_neg hc]
        apply ih
        rw [List.map_append]
        simp only [List.map_cons, List.map_nil]
        rw [List.nodup_append]
        refine ⟨h, List.nodup_singleton _, ?_⟩
        intro a ha hb
        simp only [List.mem_singleton] at hb
        subst hb
        rw [List.mem_map] at ha
        obtain ⟨r, hr, hrid⟩ := ha
        have : col.any (fun r => r.recordId = m.recordId) = true := by
          rw [List.any_eq_true]
          exact ⟨r, hr, by simpa using hrid⟩
        exact hc this

theorem collectFuzzy_nodup (fuzzy : String → List KnowledgeRecord) :
    ∀ (cands : List String) (col : List KnowledgeRecord),
      (col.map (fun r => r.recordId)).Nodup →
      ((collectFuzzy fuzzy cands col).map (fun r => r.recordId)).Nodup := by
  intro cands
  induction cands with
  | nil => intro col h; exact h
  | cons c rest ih =>
      intro col h
      rw [collectFuzzy]
      have h' := pushMatches_nodup (fuzzy c) col h
      by_cases hl : 3 ≤ (pushMatches col (fuzzy c)).length
      · rw [if_pos hl]; exact h'
      · rw [if_neg hl]; exact ih _ h'

theorem collectFuzzy_sound (fuzzy : String → List KnowledgeRecord) :
    ∀ (cands : List String) (col : List KnowledgeRecord) (a : KnowledgeRecord),
      a ∈ collectFuzzy fuzzy cands col →
      a ∈ col ∨ ∃ c ∈ cands, a ∈ fuzzy c := by
  intro cands
  induction cands with
  | nil => intro col a ha; exact Or.inl ha
  | cons c rest ih =>
      intro col a ha
      rw [collectFuzzy] at ha
      by_cases hl : 3 ≤ (pushMatches col (fuzzy c)).length
      · rw [if_pos hl] at ha
        rcases pushMatches_mem (fuzzy c) col a ha with h1 | h2
        · exact Or.inl h1
        · exact Or.inr ⟨c, List.mem_cons_self _ _, h2⟩
      · rw [if_neg hl] at ha
        rcases ih _ a ha with h1 | h2
        · rcases pushMatches_mem (fuzzy c) col a h1 with h3 | h4
          · exact Or.inl h3
          · exact Or.inr ⟨c, List.mem_cons_self _ _, h4⟩
        · obtain ⟨c', hc', ha'⟩ := h2
          exact Or.inr ⟨c', List.mem_cons_of_mem _ hc', ha'⟩

theorem collectFuzzy_length (fuzzy : String → List KnowledgeRecord) :
    ∀ (cands : List String) (col : List KnowledgeRecord),
      col.length ≤ 2 →
      (collectFuzzy fuzzy cands col).length ≤ 2 + maxMatchLen fuzzy cands := by
  intro cands
  induction cands with
  | nil => intro col h; simpa [collectFuzzy, maxMatchLen] using h
  | cons c rest ih =>
      intro col h
      rw [collectFuzzy, maxMatchLen]
      have hp := pushMatches_length (fuzzy c) col
      by_cases hl : 3 ≤ (pushMatches col (fuzzy c)).length
      · rw [if_pos hl]
        have : (pushMatches col (fuzzy c)).length ≤ 2 + (fuzzy c).length := by omega
        exact Nat.le_trans this (by have := Nat.le_max_left (fuzzy c).length (maxMatchLen fuzzy rest); omega)
      · rw [if_neg hl]
        have h2 : (pushMatches col (fuzzy c)).length ≤ 2 := by omega
        have := ih _ h2
        have hmax := Nat.le_max_right (fuzzy c).length (maxMatchLen fuzzy rest)
        omega

/-! ## Audit log lemmas -/

theorem getK_cons_self (rest : List (String × Nat)) (k : String) (t : Nat) :
    getK ((k, t) :: rest) k = some t := by
  simp [getK]

theorem getK_cons_other (rest : List (String × Nat)) {k k0 : String}
    (t0 : Nat) (h : k ≠ k0) : getK ((k0, t0) :: rest) k = getK rest k := by
  simp [getK, List.find?_cons, Ne.symm h]

theorem getK_setK_self (k : String) (t : Nat) :
    ∀ cache, getK (setK cache k t) k = some t := by
  intro cache
  induction cache with
  | nil => simp [setK, getK]
  | cons p rest ih =>
      obtain ⟨k', t'⟩ := p
      rw [setK]
      by_cases h : k' = k
      · rw [if_pos h]
        exact getK_cons_self _ _ _
      · rw [if_neg h]
        rw [getK_cons_other _ _ (fun hk => h hk.symm)]
        exact ih

theorem getK_setK_other {k k' : String} (t : Nat) (h : k' ≠ k) :
    ∀ cache, getK (setK cache k t) k' = getK cache k' := by
  intro cache
  induction cache with
  | nil =>
      show getK [(k, t)] k' = getK [] k'
      rw [getK_cons_other [] t h]
  | cons p rest ih =>
      obtain ⟨k0, t0⟩ := p
      rw [setK]
      by_cases hk : k0 = k
      · subst hk
        rw [if_pos rfl]
        rw [getK_cons_other rest t h, getK_cons_other rest t0 h]
      · rw [if_neg hk]
        by_cases hk' : k' = k0
        · subst hk'
          rw [getK_cons_self, getK_cons_self]
        · rw [getK_cons_other _ _ hk', getK_cons_other _ _ hk']
          exact ih

theorem keys_setK_subset {a k : String} (t : Nat) :
    ∀ cache, a ∈ (setK cache k t).map Prod.fst →
      a ∈ cache.map Prod.fst ∨ a = k := by
  intro cache
  induction cache with
  | nil =>
      intro h
      simp [setK] at h
      exact Or.inr h
  | cons p rest ih =>
      obtain ⟨k0, t0⟩ := p
      rw [setK]
      by_cases hk : k0 = k
      · rw [if_pos hk]
        intro h
        simp only [List.map_cons, List.mem_cons] at h ⊢
        rcases h with h | h
        · exact Or.inr h
        · exact Or.inl (Or.inr h)
      · rw [if_neg hk]
        intro h
        simp only [List.map_cons, List.mem_cons] at h ⊢
        rcases h with h | h
        · exact Or.inl (Or.inl h)
        · rcases ih h with h1 | h2
          · exact Or.inl (Or.inr h1)
          · exact Or.inr h2

theorem nodup_keys_setK {k : String} (t : Nat) :
    ∀ cache, (cache.map Prod.fst).Nodup →
      ((setK cache k t).map Prod.fst).Nodup := by
  intro cache
  induction cache with
  | nil => intro _; simp [setK]
  | cons p rest ih =>
      obtain ⟨k0, t0⟩ := p
      intro h
      simp only [List.map_cons, List.nodup_cons] at h
      obtain ⟨hk0, hrest⟩ := h
      rw [setK]
      by_cases hk : k0 = k
      · rw [if_pos hk]
        simp only [List.map_cons, List.nodup_cons]
        exact ⟨hk ▸ hk0, hrest⟩
      · rw [if_neg hk]
        simp only [List.map_cons, List.nodup_cons]
        refine ⟨?_, ih hrest⟩
        intro hmem
        rcases keys_setK_subset t rest hmem with h1 | h2
        · exact hk0 h1
        · exact hk h2

theorem getK_eq_none_iff (cache : List (String × Nat)) (k : String) :
    getK cache k = Option.none ↔ k ∉ cache.map Prod.fst := by
  rw [getK, Option.map_eq_none']
  rw [List.find?_eq_none]
  constructor
  · intro h hmem
    rw [List.mem_map] at hmem
    obtain ⟨p, hp, hfst⟩ := hmem
    exact absurd (by simpa using hfst) (by simpa using h p hp)
  · intro h p hp
    simp only [decide_eq_true_eq]
    intro hfst
    exact h (List.mem_map.mpr ⟨p, hp, hfst⟩)

theorem getK_mergeAssign_not_mem {k : String} :
    ∀ (upd cache : List (String × Nat)), k ∉ upd.map Prod.fst →
      getK (mergeAssign cache upd) k = getK cache k := by
  intro upd
  induction upd with
  | nil => intro cache _; rfl
  | cons p rest ih =>
      obtain ⟨k0, t0⟩ := p
      intro cache h
      simp only [List.map_cons, List.mem_cons, not_or] at h
      rw [mergeAssign]
      rw [ih _ h.2, getK_setK_other _ h.1]

theorem getK_mergeAssign_mem {k : String} {t : Nat} :
    ∀ (upd cache : List (String × Nat)), (upd.map Prod.fst).Nodup →
      getK upd k = some t → getK (mergeAssign cache upd) k = some t := by
  intro upd
  induction upd with
  | nil =>
      intro cache _ h
      exact absurd h (by simp [getK])
  | cons p rest ih =>
      obtain ⟨k0, t0⟩ := p
      intro cache hnd h
      simp only [List.map_cons, List.nodup_cons] at hnd
      rw [mergeAssign]
      by_cases hk : k = k0
      · subst hk
        rw [getK_cons_self] at h
        obtain rfl : t0 = t := Option.some.inj h
        rw [getK_mergeAssign_not_mem rest _ hnd.1, getK_setK_self]
      · rw [getK_cons_other _ _ hk] at h
        exact ih _ hnd.2 h

theorem latestStep_eq_none {latest : List (String × Nat)} {ev : AuditEvent}
    (h : getK latest (auditKey ev.recordId ev.fieldKey) = Option.none) :
    latestStep latest ev
      = setK latest (auditKey ev.recordId ev.fieldKey) ev.timestamp := by
  unfold latestStep
  rw [h]

theorem latestStep_eq_some {latest : List (String × Nat)} {ev : AuditEvent}
    {t0 : Nat} (h : getK latest (auditKey ev.recordId ev.fieldKey) = some t0) :
    latestStep latest ev
      = if t0 < ev.timestamp then
          setK latest (auditKey ev.recordId ev.fieldKey) ev.timestamp
        else latest := by
  unfold latestStep
  rw [h]

theorem latestStep_nodup {latest : List (String × Nat)} (ev : AuditEvent)
    (h : (latest.map Prod.fst).Nodup) :
    ((latestStep latest ev).map Prod.fst).Nodup := by
  cases hk : getK latest (auditKey ev.recordId ev.fieldKey) with
  | none =>
      rw [latestStep_eq_none hk]
      exact nodup_keys_setK _ _ h
  | some t =>
      rw [latestStep_eq_some hk]
      by_cases hlt : t < ev.timestamp
      · rw [if_pos hlt]; exact nodup_keys_setK _ _ h
      · rw [if_neg hlt]; exact h

theorem latestStep_getK_other {latest : List (String × Nat)} {ev : AuditEvent}
    {k : String} (h : k ≠ auditKey ev.recordId ev.fieldKey) :
    getK (latestStep latest ev) k = getK latest k := by
  cases hk : getK latest (auditKey ev.recordId ev.fieldKey) with
  | none =>
      rw [latestStep_eq_none hk]
      exact getK_setK_other _ h _
  | some t =>
      rw [latestStep_eq_some hk]
      by_cases hlt : t < ev.timestamp
      · rw [if_pos hlt]; exact getK_setK_other _ h _
      · rw [if_neg hlt]

theorem latestStep_getK_self_none {latest : List (String × Nat)} {ev : AuditEvent}
    (h : getK latest (auditKey ev.recordId ev.fieldKey) = Option.none) :
    getK (latestStep latest ev) (auditKey ev.recordId ev.fieldKey)
      = some ev.timestamp := by
  rw [latestStep_eq_none h]
  exact getK_setK_self _ _ _

theorem latestStep_getK_self_some {latest : List (String × Nat)} {ev : AuditEvent}
    {t0 : Nat} (h : getK latest (auditKey ev.recordId ev.fieldKey) = some t0) :
    getK (latestStep latest ev) (auditKey ev.recordId ev.fieldKey)
      = some (max t0 ev.timestamp) := by
  rw [latestStep_eq_some h]
  by_cases hlt : t0 < ev.timestamp
  · rw [if_pos hlt, getK_setK_self]
    congr 1
    omega
  · rw [if_neg hlt, h]
    congr 1
    omega

theorem loadAuditLatestAux_char :
    ∀ (log : List AuditEvent) (latest : List (String × Nat)),
      (latest.map Prod.fst).Nodup → ∀ k : String,
      ((loadAuditLatestAux latest log).map Prod.fst).Nodup ∧
      (getK (loadAuditLatestAux latest log) k = Option.none ↔
        (getK latest k = Option.none ∧
          ∀ ev ∈ log, auditKey ev.recordId ev.fieldKey ≠ k)) ∧
      (∀ t, getK (loadAuditLatestAux latest log) k = some t →
        ((getK latest k = some t ∨
            ∃ ev ∈ log, auditKey ev.recordId ev.fieldKey = k ∧ ev.timestamp = t) ∧
          (∀ t', getK latest k = some t' → t' ≤ t) ∧
          (∀ ev ∈ log, auditKey ev.recordId ev.fieldKey = k → ev.timestamp ≤ t))) := by
  intro log
  induction log with
  | nil =>
      intro latest hnd k
      refine ⟨hnd, by simp [loadAuditLatestAux], ?_⟩
      intro t ht
      have ht0 : getK latest k = some t := ht
      refine ⟨Or.inl ht0, ?_, by simp⟩
      intro t' ht'
      rw [ht0] at ht'
      exact Nat.le_of_eq (Option.some.inj ht').symm
  | cons ev rest ih =>
      intro latest hnd k
      have hnd' := latestStep_nodup ev hnd
      obtain ⟨hN, hNone, hSome⟩ := ih (latestStep latest ev) hnd' k
      refine ⟨hN, ?_, ?_⟩
      · rw [loadAuditLatestAux]
        rw [hNone]
        by_cases hk : k = auditKey ev.recordId ev.fieldKey
        · subst hk
          constructor
          · rintro ⟨hstep, -⟩
            exfalso
            cases hglk : getK latest (auditKey ev.recordId ev.fieldKey) with
            | none =>
                rw [latestStep_getK_self_none hglk] at hstep
                exact Option.noConfusion hstep
            | some t0 =>
                rw [latestStep_getK_self_some hglk] at hstep
                exact Option.noConfusion hstep
          · rintro ⟨-, hall⟩
            exact absurd rfl (hall ev (List.mem_cons_self _ _))
        · rw [latestStep_getK_other hk]
          constructor
          · rintro ⟨h1, h2⟩
            refine ⟨h1, ?_⟩
            intro ev' hev'
            rcases List.mem_cons.mp hev' with rfl | hmem
            · exact fun he => hk he.symm
            · exact h2 ev' hmem
          · rintro ⟨h1, h2⟩
            exact ⟨h1, fun ev' hev' => h2 ev' (List.mem_cons_of_mem _ hev')⟩
      · intro t ht
        rw [loadAuditLatestAux] at ht
        obtain ⟨horigin, hlat, hrest⟩ := hSome t ht
        by_cases hk : k = auditKey ev.recordId ev.fieldKey
        · subst hk
          refine ⟨?_, ?_, ?_⟩
          · rcases horigin with hstep | ⟨ev', hev', hkey, hts⟩
            · cases hglk : getK latest (auditKey ev.recordId ev.fieldKey) with
              | none =>
                  rw [latestStep_getK_self_none hglk] at hstep
                  obtain rfl := Option.some.inj hstep
                  exact Or.inr ⟨ev, List.mem_cons_self _ _, rfl, rfl⟩
              | some t0 =>
                  rw [latestStep_getK_self_some hglk] at hstep
                  obtain rfl := Option.some.inj hstep
                  rcases Nat.le_total t0 ev.timestamp with hle | hle
                  · refine Or.inr ⟨ev, List.mem_cons_self _ _, rfl, ?_⟩
                    omega
                  · left
                    congr 1
                    omega
            · exact Or.inr ⟨ev', List.mem_cons_of_mem _ hev', hkey, hts⟩
          · intro t' ht'
            cases hglk : getK latest (auditKey ev.recordId ev.fieldKey) with
            | none =>
                rw [hglk] at ht'
                exact Option.noConfusion ht'
            | some t0 =>
                rw [hglk] at ht'
                obtain rfl := Option.some.inj ht'
                have := hlat (max t0 ev.timestamp) (latestStep_getK_self_some hglk)
                omega
          · intro ev' hev' hkey
            rcases List.mem_cons.mp hev' with rfl | hmem
            · cases hglk : getK latest (auditKey ev'.recordId ev'.fieldKey) with
              | none =>
                  have := hlat ev'.timestamp (latestStep_getK_self_none hglk)
                  omega
              | some t0 =>
                  have := hlat (max t0 ev'.timestamp) (latestStep_getK_self_some hglk)
                  omega
            · exact hrest ev' hmem hkey
        · have hother := @latestStep_getK_other latest ev k hk
          refine ⟨?_, ?_, ?_⟩
          · rcases horigin with hstep | ⟨ev', hev', hkey, hts⟩
            · left
              rw [← hother]
              exact hstep
            · exact Or.inr ⟨ev', List.mem_cons_of_mem _ hev', hkey, hts⟩
          · intro t' ht'
            exact hlat t' (by rw [hother]; exact ht')
          · intro ev' hev' hkey
            rcases List.mem_cons.mp hev' with rfl | hmem
            · exact absurd hkey.symm hk
            · exact hrest ev' hmem hkey

theorem loadAuditLatest_char (log : List AuditEvent) (k : String) :
    ((loadAuditLatest log).map Prod.fst).Nodup ∧
    (getK (loadAuditLatest log) k = Option.none ↔
      ∀ ev ∈ log, auditKey ev.recordId ev.fieldKey ≠ k) ∧
    (∀ t, getK (loadAuditLatest log) k = some t →
      (∃ ev ∈ log, auditKey ev.recordId ev.fieldKey = k ∧ ev.timestamp = t) ∧
      (∀ ev ∈ log, auditKey ev.recordId ev.fieldKey = k → ev.timestamp ≤ t)) := by
  obtain ⟨hN, hNone, hSome⟩ :=
    loadAuditLatestAux_char log [] (by simp) k
  refine ⟨hN, ?_, ?_⟩
  · rw [loadAuditLatest, hNone]
    simp [getK]
  · intro t ht
    obtain ⟨horigin, -, hrest⟩ := hSome t (by rwa [loadAuditLatest] at ht)
    rcases horigin with hnil | hex
    · exact absurd hnil (by simp [getK])
    · exact ⟨hex, hrest⟩

theorem getLastReveal_snd_hydrated (st : AuditState) (h : st.hydrated = true)
    (r f : String) :
    (getLastReveal st r f).2 = getK st.cache (auditKey r f) := by
  unfold getLastReveal
  rw [if_pos h]

theorem getLastReveal_snd_not_hydrated (st : AuditState)
    (h : st.hydrated = false) (r f : String) :
    (getLastReveal st r f).2
      = getK (mergeAssign st.cache (loadAuditLatest st.log)) (auditKey r f) := by
  unfold getLastReveal
  rw [if_neg (by simp [h])]

theorem logReveal_cache (st : AuditState) (r f : String) (t : Nat) :
    (logReveal st r f t).cache = setK st.cache (auditKey r f) t := rfl

theorem logReveal_log (st : AuditState) (r f : String) (t : Nat) :
    (logReveal st r f t).log
      = st.log ++ [{ recordId := r, fieldKey := f, timestamp := t }] := rfl

theorem logReveal_hydrated (st : AuditState) (r f : String) (t : Nat) :
    (logReveal st r f t).hydrated = st.hydrated := rfl

/-! ## Live update controller lemmas -/

theorem withLegacy_pinned_key (key reason : String) (o : Option String) :
    (withLegacy (pinnedCtx key reason) o).key = some key := by
  show jsOr (some key) [key].head? = some key
  by_cases hk : key = ""
  · subst hk
    rfl
  · simp [jsOr, hk]

theorem updateOnTrigger_pinned (st : LiveState) (key reason : String)
    (page : LegacyContext) :
    updateOnTrigger (setPinnedContext st key reason) page
      = setPinnedContext st key reason := by
  unfold updateOnTrigger
  rw [if_neg]
  rintro (h1 | h2)
  · exact h1 (by
      show (withLegacy (pinnedCtx key reason) (some "pinned")).key
        = (withLegacy (pinnedCtx key reason) (some reason)).key
      rw [withLegacy_pinned_key, withLegacy_pinned_key])
  · exact h2 rfl

/-! ## Claim theorems -/

/-- C1 (counterexample): a strategy list whose only strategy throws makes
`runStrategies` — and hence the context computation of `detectNow` —
propagate the exception instead of treating it as a miss. -/
theorem c1_counterexample :
    runStrategiesE [Except.error ()] = Except.error () ∧
      detectContextFromE Option.none [Except.error ()] "unknown"
        = Except.error () :=
  ⟨rfl, rfl⟩

/-- C1 (amended): a strategy returning null is treated as a miss and
execution continues with the remaining strategies, and on a throw-free
outcome list the executor returns the aggregate; but a strategy that
throws (e.g. malformed selector or regex) aborts `runStrategies` and the
exception escapes — there is no try/catch in the executor. -/
theorem c1_strategy_throw_propagates :
    (∀ results : List (Option StrategyResult),
        runStrategiesE (results.map Except.ok)
          = Except.ok (runStrategies results)) ∧
    (∀ (pre : List (Option StrategyResult))
        (rest : List (Except Unit (Option StrategyResult))),
        runStrategiesE (pre.map Except.ok ++ Except.error () :: rest)
          = Except.error ()) := by
  constructor
  · intro results
    exact runStrategiesAuxE_map_ok results initAcc
  · intro pre rest
    exact runStrategiesAuxE_error pre initAcc rest

theorem detectConfidence_of_bind_none {cfg : Option ResolverConfigM}
    {agg : StrategyResult}
    (hc : Option.bind cfg (fun c => c.confidenceRules) = Option.none) :
    detectConfidence cfg agg = confidenceFrom agg := by
  unfold detectConfidence
  rw [hc]

theorem detectConfidence_of_find_none {cfg : Option ResolverConfigM}
    {agg : StrategyResult} {rules : List ConfidenceRule}
    (hc : Option.bind cfg (fun c => c.confidenceRules) = some rules)
    (hf : rules.find? (ruleSatisfied agg) = Option.none) :
    detectConfidence cfg agg = confidenceFrom agg := by
  unfold detectConfidence
  rw [hc]
  show (match rules.find? (ruleSatisfied agg) with
    | some rule => rule.confidence
    | Option.none => confidenceFrom agg) = confidenceFrom agg
  rw [hf]

/-- C2 (counterexample): with a declared confidence rule whose requirement
set is empty and whose grade is `low`, a strategy yielding the non-empty
bookingId `"WB12"` still produces confidence `low`, not `high`. -/
theorem c2_counterexample :
    (detectContextFrom cfgLowRule resBooking "x").bookingId = some "wb12" ∧
      (detectContextFrom cfgLowRule resBooking "x").confidence
        ≠ ContextConfidence.high := by
  refine ⟨by decide, by decide⟩

/-- C2 (amended): if any strategy yields a non-empty bookingId then the
context produced by detectNow has confidence high, provided the active
config declares no confidenceRules or none of its rules is satisfied by
the aggregate; a satisfied rule overrides the default with its own grade,
which need not be high. -/
theorem c2_confidence_high_unless_rule (cfg : Option ResolverConfigM)
    (results : List (Option StrategyResult)) (fallbackApp : String)
    (hb : truthyStr (runStrategies results).bookingId = true)
    (hr : ∀ rs, Option.bind cfg (fun c => c.confidenceRules) = some rs →
        rs.find? (ruleSatisfied (runStrategies results)) = Option.none) :
    (detectContextFrom cfg results fallbackApp).confidence
      = ContextConfidence.high := by
  show detectConfidence cfg (runStrategies results) = ContextConfidence.high
  have hcf : confidenceFrom (runStrategies results) = ContextConfidence.high := by
    unfold confidenceFrom
    rw [if_pos hb]
  cases hc : Option.bind cfg (fun c => c.confidenceRules) with
  | none => rw [detectConfidence_of_bind_none hc]; exact hcf
  | some rules => rw [detectConfidence_of_find_none hc (hr rules hc)]; exact hcf

/-- C2 (witness): with no config, a strategy yielding `"WB12"` gives a
non-empty bookingId and confidence high. -/
theorem c2_witness :
    truthyStr (runStrategies resBooking).bookingId = true ∧
      (detectContextFrom Option.none resBooking "unknown").confidence
        = ContextConfidence.high :=
  ⟨by decide,
   c2_confidence_high_unless_rule Option.none resBooking "unknown" (by decide)
     (fun rs h => Option.noConfusion h)⟩

/-- C10: a secret field that has not been revealed in this session is
masked regardless of its revealPolicy (including `plain`): shouldMask is
true, and both the renderer and the palette's composition of the two
produce the bullet mask. -/
theorem c10_secret_masked_until_revealed :
    ∀ (v : String) (p : Option RevealPolicy) (a : Option Bool),
      shouldMask (KnowledgeField.secret v p a) false = true ∧
      renderFieldValue (KnowledgeField.secret v p a) false = "••••••" ∧
      paletteRender (KnowledgeField.secret v p a) false = "••••••" := by
  intro v p a
  exact ⟨rfl, rfl, rfl⟩

/-- C7: loadPack replaces the in-memory record set whether or not the
persistence write fails, and an immediate search("") returns exactly the
first five records of the new pack — each returned record comes from the
new records, never from the prior set. -/
theorem c7_loadPack_swap
    (createFuse : List KnowledgeRecord → String → List KnowledgeRecord)
    (st : StoreState) (newRecords : List KnowledgeRecord)
    (persistFails : Bool) :
    (loadPack createFuse st newRecords persistFails).records = newRecords ∧
    searchStore (loadPack createFuse st newRecords persistFails) ""
      = newRecords.take 5 ∧
    ∀ r ∈ searchStore (loadPack createFuse st newRecords persistFails) "",
      r ∈ newRecords := by
  have hrec : (loadPack createFuse st newRecords persistFails).records
      = newRecords := by
    unfold loadPack
    cases persistFails <;> rfl
  have hsearch : searchStore (loadPack createFuse st newRecords persistFails) ""
      = newRecords.take 5 := by
    unfold searchStore
    rw [if_pos (by decide), hrec]
  refine ⟨hrec, hsearch, ?_⟩
  intro r hr
  rw [hsearch] at hr
  exact List.take_subset _ _ hr

/-- C3: when ctx.bookingId is set (non-empty) and some record's keys
contain a case-insensitive exact match for it, resolveContext returns
exactly the records with an exact key match — for every fuzzy index, so
the fuzzy search can never override the exact match. -/
theorem c3_exact_match_authoritative (records : List KnowledgeRecord)
    (fuzzy : String → List KnowledgeRecord) (c : ResolvedContext)
    (bid : String) (hb : c.bookingId = some bid) (hne : bid ≠ "")
    (hex : ∃ r ∈ records, ∃ k ∈ r.keys, jsToLower k = jsToLower bid) :
    resolveContext records fuzzy (some c) = exactMatches records bid := by
  have hexne : exactMatches records bid ≠ [] := by
    obtain ⟨r, hr, k, hk, hkey⟩ := hex
    intro hnil
    have hrmem : r ∈ exactMatches records bid := by
      rw [exactMatches, List.mem_filter]
      refine ⟨hr, ?_⟩
      rw [List.any_eq_true]
      exact ⟨k, hk, by simpa using hkey⟩
    rw [hnil] at hrmem
    exact List.not_mem_nil r hrmem
  have hred : resolveContext records fuzzy (some c)
      = if truthyStr c.bookingId = true ∧
            exactMatches records (c.bookingId.getD "") ≠ [] then
          exactMatches records (c.bookingId.getD "")
        else collectFuzzy fuzzy c.apartmentKeyCandidates [] := rfl
  rw [hred, hb]
  simp only [Option.getD_some]
  rw [if_pos ⟨by simp [truthyStr, hne], hexne⟩]

/-- C3 (witness): `bookingId = "wb12"` with a record keyed `WB12` returns
exactly that record, under a fuzzy index that would prefer the other
record. -/
theorem c3_witness :
    resolveContext [recWb12, recOther] (fun _ => [recOther])
        (some { app := "a", bookingId := some "wb12",
                apartmentKeyCandidates := ["zz"],
                confidence := ContextConfidence.high, evidence := [] })
      = exactMatches [recWb12, recOther] "wb12" ∧
    exactMatches [recWb12, recOther] "wb12" = [recWb12] :=
  ⟨c3_exact_match_authoritative [recWb12, recOther] (fun _ => [recOther]) _
      "wb12" rfl (by decide) (by decide),
   by decide⟩

/-- C4 (counterexample): a single candidate whose fuzzy search returns four
distinct records makes resolveContext return four records — more than the
claimed maximum of 3. -/
theorem c4_counterexample :
    (resolveContext recsFour fuzzyFour (some ctxNoBooking)).length = 4 ∧
      ¬ (resolveContext recsFour fuzzyFour (some ctxNoBooking)).length ≤ 3 := by
  refine ⟨by decide, by decide⟩

/-- C4 (amended): for every context without an exact bookingId match —
bookingId unset, empty, or matching no record's keys — the fuzzy fallback
accumulates records de-duplicated by recordId (the result has no duplicate
recordId and every element comes from some candidate's fuzzy search), and
candidate iteration stops as soon as at least 3 distinct records are
collected — but all matches of the current candidate are pushed before the
threshold check, so the list can exceed 3: it is bounded by 2 plus the
largest per-candidate match count, not by 3. -/
theorem c4_fuzzy_accumulation (records : List KnowledgeRecord)
    (fuzzy : String → List KnowledgeRecord) (c : ResolvedContext)
    (hb : ¬ (truthyStr c.bookingId = true ∧
        exactMatches records (c.bookingId.getD "") ≠ [])) :
    ((resolveContext records fuzzy (some c)).map (fun r => r.recordId)).Nodup ∧
    (∀ a ∈ resolveContext records fuzzy (some c),
        ∃ cand ∈ c.apartmentKeyCandidates, a ∈ fuzzy cand) ∧
    (resolveContext records fuzzy (some c)).length
      ≤ 2 + maxMatchLen fuzzy c.apartmentKeyCandidates := by
  have hres : resolveContext records fuzzy (some c)
      = collectFuzzy fuzzy c.apartmentKeyCandidates [] := by
    have hred : resolveContext records fuzzy (some c)
        = if truthyStr c.bookingId = true ∧
              exactMatches records (c.bookingId.getD "") ≠ [] then
            exactMatches records (c.bookingId.getD "")
          else collectFuzzy fuzzy c.apartmentKeyCandidates [] := rfl
    rw [hred, if_neg hb]
  rw [hres]
  refine ⟨collectFuzzy_nodup fuzzy _ [] (by simp), ?_,
    collectFuzzy_length fuzzy _ [] (by simp)⟩
  intro a ha
  rcases collectFuzzy_sound fuzzy _ [] a ha with h1 | h2
  · exact absurd h1 (List.not_mem_nil a)
  · exact h2

/-- C4 (witness): the amended properties evaluated on the concrete
four-match index. -/
theorem c4_witness :
    ((resolveContext recsFour fuzzyFour (some ctxNoBooking)).map
        (fun r => r.recordId)).Nodup ∧
    (∀ a ∈ resolveContext recsFour fuzzyFour (some ctxNoBooking),
        ∃ cand ∈ ctxNoBooking.apartmentKeyCandidates, a ∈ fuzzyFour cand) ∧
    (resolveContext recsFour fuzzyFour (some ctxNoBooking)).length
      ≤ 2 + maxMatchLen fuzzyFour ctxNoBooking.apartmentKeyCandidates :=
  c4_fuzzy_accumulation recsFour fuzzyFour ctxNoBooking (by decide)

/-- C5 (counterexample): the first strategy returning a non-empty raw
bookingId is the whitespace-only one, whose normalized value is unset —
yet the aggregate carries the later strategy's value `"x"`, so the
aggregated bookingId is not the normalized value of that first strategy. -/
theorem c5_counterexample :
    firstNonEmptyRaw resWhitespaceFirst = some " " ∧
    normalize (firstNonEmptyRaw resWhitespaceFirst) = Option.none ∧
    (runStrategies resWhitespaceFirst).bookingId = some "x" ∧
    (runStrategies resWhitespaceFirst).bookingId
      ≠ normalize (firstNonEmptyRaw resWhitespaceFirst) := by
  refine ⟨by decide, by decide, by decide, by decide⟩

/-- C5 (amended): the aggregated bookingId equals the first non-none
normalized bookingId across outcomes in configured order — a strategy
whose bookingId is empty or whitespace-only contributes nothing and does
not block later strategies — and once the aggregate holds a non-empty
bookingId, appending further strategies never overrides it. -/
theorem c5_first_normalized_wins
    (results more : List (Option StrategyResult))
    (h : truthyStr (runStrategies results).bookingId = true) :
    ((runStrategies results).bookingId
        = results.findSome? fun o => Option.bind o fun r => normalize r.bookingId) ∧
    (runStrategies (results ++ more)).bookingId
      = (runStrategies results).bookingId := by
  constructor
  · exact foldl_stepRS_bookingId_none results rfl
  · show ((results ++ more).foldl stepRS initAcc).bookingId = _
    rw [List.foldl_append]
    exact foldl_stepRS_bookingId_of_truthy more h

/-- C5 (witness): `"A"` then `"b"` — the first normalized value `"a"` wins
and the appended strategy does not override it. -/
theorem c5_witness :
    truthyStr (runStrategies [some { bookingId := some "A" }]).bookingId = true ∧
    (runStrategies ([some { bookingId := some "A" }]
        ++ [some { bookingId := some "b" }])).bookingId
      = (runStrategies [some { bookingId := some "A" }]).bookingId :=
  ⟨by decide,
   (c5_first_normalized_wins [some { bookingId := some "A" }]
      [some { bookingId := some "b" }] (by decide)).2⟩

/-- C6: the aggregated apartmentKeyCandidates list contains each
normalized (trim+lowercase) value exactly once: it is duplicate-free, and
a string is in it iff some firing strategy emitted a candidate normalizing
to it; in the spec's example the two casing/whitespace variants collapse
to the single candidate "west broadway 12". -/
theorem c6_candidates_normalized_dedup :
    (∀ results : List (Option StrategyResult),
      (runStrategies results).apartmentKeyCandidates.Nodup ∧
      ∀ s, s ∈ (runStrategies results).apartmentKeyCandidates ↔
        ∃ r, some r ∈ results ∧
          ∃ c ∈ r.apartmentKeyCandidates, normOne c = some s) ∧
    (runStrategies resDupCandidates).apartmentKeyCandidates
      = ["west broadway 12"] := by
  constructor
  · intro results
    have hrs : runStrategies results = results.foldl stepRS initAcc := rfl
    rw [hrs]
    have h := foldl_stepRS_cands results initAcc (by simp [initAcc]) (by simp [initAcc])
    refine ⟨h.1, fun s => ?_⟩
    rw [h.2 s]
    simp [initAcc]
  · decide

/-- C7 (witness): swapping in a one-record pack while persistence fails
still makes search("") return that record. -/
theorem c7_witness :
    (loadPack (fun rs _ => rs)
        { records := [recOther], fuse := fun _ => [], mirror := [recOther] }
        [recWb12] true).records = [recWb12] ∧
    searchStore (loadPack (fun rs _ => rs)
        { records := [recOther], fuse := fun _ => [], mirror := [recOther] }
        [recWb12] true) "" = [recWb12].take 5 ∧
    ∀ r ∈ searchStore (loadPack (fun rs _ => rs)
        { records := [recOther], fuse := fun _ => [], mirror := [recOther] }
        [recWb12] true) "", r ∈ [recWb12] :=
  c7_loadPack_swap (fun rs _ => rs)
    { records := [recOther], fuse := fun _ => [], mirror := [recOther] }
    [recWb12] true

/-- C8: logReveal followed by getLastReveal returns a timestamp; two
sequential logReveal calls under a non-decreasing clock followed by
getLastReveal return the later of the two timestamps; and first-call
hydration retains the maximum persisted timestamp per recordId:fieldKey
key. -/
theorem c8_audit_last_reveal (st : AuditState) (r f : String) (t1 t2 : Nat)
    (h12 : t1 ≤ t2)
    (hlog : ∀ ev ∈ st.log, auditKey ev.recordId ev.fieldKey = auditKey r f →
      ev.timestamp ≤ t2) :
    ((getLastReveal (logReveal st r f t1) r f).2).isSome = true ∧
    (getLastReveal (logReveal (logReveal st r f t1) r f t2) r f).2 = some t2 ∧
    (∀ (log : List AuditEvent) (r' f' : String),
      (getK (loadAuditLatest log) (auditKey r' f') = Option.none ↔
        ∀ ev ∈ log, auditKey ev.recordId ev.fieldKey ≠ auditKey r' f') ∧
      ∀ t, getK (loadAuditLatest log) (auditKey r' f') = some t →
        (∃ ev ∈ log,
            auditKey ev.recordId ev.fieldKey = auditKey r' f' ∧ ev.timestamp = t) ∧
        ∀ ev ∈ log, auditKey ev.recordId ev.fieldKey = auditKey r' f' →
          ev.timestamp ≤ t) := by
  refine ⟨?_, ?_, ?_⟩
  · cases hyd : st.hydrated with
    | true =>
        rw [getLastReveal_snd_hydrated (logReveal st r f t1) hyd r f]
        rw [logReveal_cache, getK_setK_self]
        rfl
    | false =>
        rw [getLastReveal_snd_not_hydrated (logReveal st r f t1) hyd r f]
        rw [logReveal_cache, logReveal_log]
        obtain ⟨hN, hNone, hSome⟩ :=
          loadAuditLatest_char
            (st.log ++ [{ recordId := r, fieldKey := f, timestamp := t1 }])
            (auditKey r f)
        cases hl : getK (loadAuditLatest
            (st.log ++ [{ recordId := r, fieldKey := f, timestamp := t1 }]))
            (auditKey r f) with
        | none =>
            exfalso
            have := hNone.mp hl
              ⟨r, f, t1⟩ (by simp)
            exact this rfl
        | some t =>
            rw [getK_mergeAssign_mem _ _ hN hl]
            rfl
  · cases hyd : st.hydrated with
    | true =>
        rw [getLastReveal_snd_hydrated
          (logReveal (logReveal st r f t1) r f t2) hyd r f]
        rw [logReveal_cache, logReveal_cache, getK_setK_self]
    | false =>
        rw [getLastReveal_snd_not_hydrated
          (logReveal (logReveal st r f t1) r f t2) hyd r f]
        rw [logReveal_cache, logReveal_log, logReveal_log]
        obtain ⟨hN, hNone, hSome⟩ :=
          loadAuditLatest_char
            ((st.log ++ [{ recordId := r, fieldKey := f, timestamp := t1 }])
              ++ [{ recordId := r, fieldKey := f, timestamp := t2 }])
            (auditKey r f)
        cases hl : getK (loadAuditLatest
            ((st.log ++ [{ recordId := r, fieldKey := f, timestamp := t1 }])
              ++ [{ recordId := r, fieldKey := f, timestamp := t2 }]))
            (auditKey r f) with
        | none =>
            exfalso
            exact hNone.mp hl ⟨r, f, t2⟩ (by simp) rfl
        | some t =>
            obtain ⟨⟨ev', hev', hkey', hts'⟩, hmax⟩ := hSome t hl
            have hle2 : t ≤ t2 := by
              rcases List.mem_append.mp hev' with hev1 | hev2
              · rcases List.mem_append.mp hev1 with hin | hone
                · rw [← hts']
                  exact hlog ev' hin hkey'
                · simp only [List.mem_singleton] at hone
                  subst hone
                  have hts1 : t1 = t := hts'
                  omega
              · simp only [List.mem_singleton] at hev2
                subst hev2
                have hts2 : t2 = t := hts'
                omega
            have hge2 : t2 ≤ t :=
              hmax ⟨r, f, t2⟩ (by simp) rfl
            have : t = t2 := by omega
            subst this
            rw [getK_mergeAssign_mem _ _ hN hl]
  · intro log r' f'
    obtain ⟨-, hNone, hSome⟩ := loadAuditLatest_char log (auditKey r' f')
    exact ⟨hNone, hSome⟩

/-- C8 (witness): starting from the empty audit state, logging reveal
timestamps 1 then 2 and reading back yields 2. -/
theorem c8_witness :
    (1 : Nat) ≤ 2 ∧
    (getLastReveal (logReveal (logReveal ⟨[], [], false⟩ "r" "f" 1) "r" "f" 2)
        "r" "f").2 = some 2 :=
  ⟨by decide,
   (c8_audit_last_reveal ⟨[], [], false⟩ "r" "f" 1 2 (by decide)
      (by simp)).2.1⟩

/-- C9: after setPinnedContext(key, reason) the published context has that
key, confidence high and evidence [reason]; and no sequence of automatic
recompute triggers — whatever contexts the page detection would produce —
changes the published context while the pin is in place. -/
theorem c9_pin_freezes_context (st : LiveState) (key reason : String)
    (pages : List LegacyContext) :
    (setPinnedContext st key reason).current.key = some key ∧
    (setPinnedContext st key reason).current.ctx.confidence
      = ContextConfidence.high ∧
    (setPinnedContext st key reason).current.ctx.evidence = [reason] ∧
    pages.foldl updateOnTrigger (setPinnedContext st key reason)
      = setPinnedContext st key reason := by
  refine ⟨withLegacy_pinned_key key reason (some reason), rfl, rfl, ?_⟩
  induction pages with
  | nil => rfl
  | cons p ps ih =>
      rw [List.foldl_cons, updateOnTrigger_pinned st key reason p]
      exact ih

end Aether
